import Mathlib

/-!
Verification of the token-matching and OCR-extraction pipeline
(backend/app: match.py, extract.py, ocr_backend.py, utils.py, main.py).

Strings are modeled as lists of characters (`Str`).  The Python standard
library functions used by `normalize` (unicodedata.normalize("NFKC", ...)
and str.upper) are modeled on the finite character repertoire the program
exercises: full-width ASCII variants U+FF01..U+FF5E, the ideographic space
U+3000, the dash variants U+2013/U+2014/U+2212, ASCII, and the Greek
character U+0390 whose uppercase expansion (SpecialCasing.txt) produces a
canonically composable sequence U+0399 U+0308.  All other characters are
NFKC-stable, case-stable and pass through unchanged, which matches the
real functions on that repertoire.
-/

namespace App

abbrev Str := List Char

def str (s : String) : Str := s.data

/-- Whitespace recognized by Python's regex class \s on str and by
str.strip: ASCII control whitespace, space, the C1/Unicode space
characters, and the ideographic space U+3000. -/
def isWs (c : Char) : Bool :=
  decide ((9 ≤ c.toNat ∧ c.toNat ≤ 13) ∨ c.toNat = 32 ∨
    (28 ≤ c.toNat ∧ c.toNat ≤ 31) ∨ c.toNat = 0x85 ∨ c.toNat = 0xa0 ∨
    c.toNat = 0x1680 ∨ (0x2000 ≤ c.toNat ∧ c.toNat ≤ 0x200a) ∨
    c.toNat = 0x2028 ∨ c.toNat = 0x2029 ∨ c.toNat = 0x202f ∨
    c.toNat = 0x205f ∨ c.toNat = 0x3000)

/-- Per-character part of unicodedata.normalize("NFKC", ...): compatibility
mapping of the full-width ASCII block to ASCII and of the ideographic space
to an ASCII space; identity elsewhere on the modeled repertoire. -/
def nfkcChar (c : Char) : List Char :=
  if 0xFF01 ≤ c.toNat ∧ c.toNat ≤ 0xFF5E then [Char.ofNat (c.toNat - 0xFEE0)]
  else if c.toNat = 0x3000 then [Char.ofNat 32]
  else [c]

/-- Canonical composition step of NFKC for the modeled repertoire: the pair
U+0399 (capital iota) followed by U+0308 (combining diaeresis) composes to
U+03AA (capital iota with dialytika). -/
def nfkcCompose : Str → Str
  | [] => []
  | a :: rest =>
    match nfkcCompose rest with
    | [] => [a]
    | b :: tl =>
      if a.toNat = 0x399 ∧ b.toNat = 0x308 then Char.ofNat 0x3AA :: tl
      else a :: b :: tl

/-- Model of unicodedata.normalize("NFKC", text). -/
def nfkc (l : Str) : Str := nfkcCompose (l.map nfkcChar).flatten

/-- Model of Python str.upper on one character: ASCII case mapping, plus
the full (one-to-many) case mapping of U+0390, which uppercases to
U+0399 U+0308 U+0301 per SpecialCasing.txt; identity elsewhere on the
modeled repertoire. -/
def upperChar (c : Char) : List Char :=
  if c.toNat = 0x390 then [Char.ofNat 0x399, Char.ofNat 0x308, Char.ofNat 0x301]
  else if 97 ≤ c.toNat ∧ c.toNat ≤ 122 then [Char.ofNat (c.toNat - 32)]
  else [c]

/-- Model of Python str.upper. -/
def pyUpper (l : Str) : Str := (l.map upperChar).flatten

/-- Replacement of the three dash variants (en dash U+2013, em dash U+2014,
minus sign U+2212) by an ASCII hyphen, as in
text.replace("–", "-").replace("—", "-").replace("−", "-"). -/
def dashChar (c : Char) : Char :=
  if c.toNat = 0x2013 ∨ c.toNat = 0x2014 ∨ c.toNat = 0x2212 then Char.ofNat 45 else c

def dashFix (l : Str) : Str := l.map dashChar

/-- Model of re.sub of one-or-more whitespace by a single ASCII space:
every maximal whitespace run is collapsed to one space.  Processing is
right-to-left: a whitespace character merges into an already-collapsed
space that immediately follows it. -/
def collapseWs : Str → Str
  | [] => []
  | c :: rest =>
    match collapseWs rest with
    | [] => if isWs c then [Char.ofNat 32] else [c]
    | d :: tl =>
      if isWs c then
        if d = Char.ofNat 32 then Char.ofNat 32 :: tl
        else Char.ofNat 32 :: d :: tl
      else c :: d :: tl

/-- Model of Python str.strip: drop whitespace from both ends. -/
def trimWs (l : Str) : Str :=
  ((l.dropWhile (fun c => isWs c)).reverse.dropWhile (fun c => isWs c)).reverse

/-- Embedding of match.normalize: NFKC fold, uppercase, dash unification,
whitespace collapsing, trim (None inputs, handled by the source as the
empty string, are outside the string domain). -/
def normalize (l : Str) : Str := trimWs (collapseWs (dashFix (pyUpper (nfkc l))))

/-- First character class of TOKEN_PATTERN, the regex
[A-Z0-9][A-Z0-9\-_\x2f]\x7b3,\x7d: an uppercase letter or a digit. -/
def isStart (c : Char) : Bool :=
  decide ((65 ≤ c.toNat ∧ c.toNat ≤ 90) ∨ (48 ≤ c.toNat ∧ c.toNat ≤ 57))

/-- Continuation character class of TOKEN_PATTERN: uppercase letter, digit,
hyphen, underscore or slash. -/
def isBody (c : Char) : Bool :=
  isStart c || decide (c.toNat = 45 ∨ c.toNat = 95 ∨ c.toNat = 47)

/-- Scanner state machine equivalent to TOKEN_PATTERN.findall: leftmost,
non-overlapping, greedy matches.  `cur = some acc` holds the characters of
the current candidate run in reverse.  Because every start character is
also a body character, a failed run (shorter than four characters) cannot
contain a later match start, so the scan resumes after the run exactly as
Python's regex engine does. -/
def goTok (cur : Option Str) : Str → List Str
  | [] =>
    match cur with
    | some acc => if 4 ≤ acc.length then [acc.reverse] else []
    | none => []
  | c :: rest =>
    match cur with
    | none => if isStart c then goTok (some [c]) rest else goTok none rest
    | some acc =>
      if isBody c then goTok (some (c :: acc)) rest
      else (if 4 ≤ acc.length then [acc.reverse] else []) ++ goTok none rest

/-- Model of TOKEN_PATTERN.findall. -/
def findTokens (l : Str) : List Str := goTok none l

/-- The fixed stopword blacklist of match.py. -/
def BLACKLIST : List Str :=
  [str "SCALE", str "DATE", str "PAGE", str "SIZE", str "ISO", str "DIN",
   str "MM", str "KG", str "LOT", str "MODEL", str "CODE", str "FAX", str "TEL"]

/-- Python ch.isdigit restricted to the token alphabet (matches of
TOKEN_PATTERN contain only A-Z, 0-9, hyphen, underscore, slash, on which
isdigit means an ASCII digit). -/
def isDigitChar (c : Char) : Bool := decide (48 ≤ c.toNat ∧ c.toNat ≤ 57)

/-- Filter applied to each regex match: keeps it when it contains a digit
and is not blacklisted. -/
def keepToken (t : Str) : Bool := t.any isDigitChar && !(decide (t ∈ BLACKLIST))

/-- Lexicographic strict order on strings by code point, the order used by
Python's sorted on str. -/
def strLtB : Str → Str → Bool
  | [], [] => false
  | [], _ :: _ => true
  | _ :: _, [] => false
  | a :: as, b :: bs => if a = b then strLtB as bs else decide (a < b)

def insertTok (t : Str) : List Str → List Str
  | [] => [t]
  | u :: us => if strLtB t u then t :: u :: us else u :: insertTok t us

/-- Model of Python sorted on a list of strings (insertion sort; on a
duplicate-free list any correct sort produces the same output). -/
def sortToks (l : List Str) : List Str := l.foldr insertTok []

/-- Embedding of match.extract_tokens: normalize the page text, scan for
pattern matches, keep those with a digit that are not blacklisted,
deduplicate (the source accumulates into a set) and sort. -/
def extract_tokens (l : Str) : List Str :=
  sortToks (((findTokens (normalize l)).filter keepToken).dedup)

/-- One row of the reference table.  `hinban` and `spec` are the raw cell
values with absent cells as the empty string (the source applies
fillna("")).  `zaiko` is `some v` when the optional stock column is
present for the row. -/
structure Row where
  hinban : Str
  spec : Str
  zaiko : Option Str
deriving DecidableEq, Repr

/-- A frame row of build_database_index: the raw row together with the
derived HINBAN_N and SPEC_N columns. -/
structure IRow where
  row : Row
  hinbanN : Str
  specN : Str
deriving DecidableEq, Repr

/-- Python dict.setdefault(key, []).append(idx) on an association list
whose key order is insertion order. -/
def insertIdx : List (Str × List Nat) → Str → Nat → List (Str × List Nat)
  | [], k, i => [(k, [i])]
  | (k', is) :: rest, k, i =>
    if k' = k then (k', is ++ [i]) :: rest else (k', is) :: insertIdx rest k i

/-- The loop of build_database_index over the HINBAN_N column: rows whose
normalized identifier is empty are skipped, every other row index is
appended to the bucket of its normalized identifier. -/
def buildMapAux : List (Str × List Nat) → Nat → List Str → List (Str × List Nat)
  | m, _, [] => m
  | m, i, v :: vs => buildMapAux (if v = [] then m else insertIdx m v i) (i + 1) vs

def buildMap (vals : List Str) : List (Str × List Nat) := buildMapAux [] 0 vals

/-- Python dict lookup on the association list (`none` models a missing
key, i.e. `normalized_token in index.hinban_map` being False). -/
def lookupMap : List (Str × List Nat) → Str → Option (List Nat)
  | [], _ => none
  | (k, is) :: rest, q => if k = q then some is else lookupMap rest q

/-- Embedding of match.DatabaseIndex. -/
structure DatabaseIndex where
  frame : List IRow
  hinban_map : List (Str × List Nat)
deriving DecidableEq, Repr

/-- Embedding of match.build_database_index (the schema check for the
presence of the hinban and spec columns is outside the row model). -/
def build_database_index (tbl : List Row) : DatabaseIndex :=
  let frame := tbl.map fun r => IRow.mk r (normalize r.hinban) (normalize r.spec)
  DatabaseIndex.mk frame (buildMap (frame.map IRow.hinbanN))

inductive MType where
  | hinban : MType
  | spec : MType
deriving DecidableEq, Repr

/-- Output record of match_token: matched_type, matched_hinban, and the
zaiko field when the stock column is present. -/
structure MatchRecord where
  matched_type : MType
  matched_hinban : Str
  zaiko : Option Str
deriving DecidableEq, Repr

def rowRecord (mt : MType) (r : IRow) : MatchRecord :=
  MatchRecord.mk mt r.row.hinban r.row.zaiko

/-- Token of the modeled regex dialect of pandas Series.str.contains
(whose default is regex=True): a literal character, or a character under a
postfix one-or-more quantifier. -/
inductive RTok where
  | lit : Char → RTok
  | plus : Char → RTok
deriving DecidableEq, Repr

/-- Pattern compilation for the modeled dialect: a character followed by
a plus sign becomes a one-or-more atom, every other character is a
literal.  This is faithful for patterns built from regex-literal
characters and the plus quantifier, which covers every token the
extractor can produce and the divergence witnesses below; other
metacharacters are outside the modeled dialect. -/
def parseRx : Str → List RTok
  | [] => []
  | [c] => [RTok.lit c]
  | c :: p :: rest2 =>
    if p = Char.ofNat 43 then RTok.plus c :: parseRx rest2
    else RTok.lit c :: parseRx (p :: rest2)

/-- Does the pattern match some leading segment of the string? -/
def rxMatchHere : List RTok → Str → Bool
  | [], _ => true
  | RTok.lit _ :: _, [] => false
  | RTok.lit c :: ts, d :: ds => c = d && rxMatchHere ts ds
  | RTok.plus _ :: _, [] => false
  | RTok.plus c :: ts, d :: ds =>
    c = d && (rxMatchHere ts ds || rxMatchHere (RTok.plus c :: ts) ds)

/-- Does the pattern match starting at any position (re.search)? -/
def rxSearch (ts : List RTok) : Str → Bool
  | [] => rxMatchHere ts []
  | c :: rest => rxMatchHere ts (c :: rest) || rxSearch ts rest

/-- Model of pandas Series.str.contains applied to one cell: a regex
search of the pattern in the cell (regex=True being the pandas default);
na=False only concerns missing cells, which the index model already
normalizes to strings. -/
def pdStrContains (pat cell : Str) : Bool := rxSearch (parseRx pat) cell

/-- Embedding of match.match_token: normalize the token; if it is a key of
the identifier map, emit one hinban record per bucket row and stop;
otherwise emit one spec record per row whose SPEC_N the pandas contains
search accepts. -/
def match_token (token : Str) (index : DatabaseIndex) : List MatchRecord :=
  let nt := normalize token
  match lookupMap index.hinban_map nt with
  | some bucket =>
    bucket.map fun i =>
      rowRecord MType.hinban (index.frame.getD i (IRow.mk (Row.mk [] [] none) [] []))
  | none =>
    (index.frame.filter fun r => pdStrContains nt r.specN).map (rowRecord MType.spec)

def exTbl : List Row :=
  [Row.mk (str "AB-1234") (str "steel bracket AB-1234-X") (some (str "10")),
   Row.mk (str "AB-1234") (str "other line") none,
   Row.mk (str "CD-9") (str "contains ab-1234 text") (some (str "3"))]

/-- Python str.lower on one character, for the ASCII backend names the
orchestrator compares against. -/
def lowerChar (c : Char) : Char :=
  if 65 ≤ c.toNat ∧ c.toNat ≤ 90 then Char.ofNat (c.toNat + 32) else c

def pyLower (l : Str) : Str := l.map lowerChar

/-- Python str.strip. -/
def pyStrip (l : Str) : Str := trimWs l

/-- Outcome oracle for one page of the primary (YomiToku) engine: the
page's ultimate result after the retry-with-backoff policy, an error
standing for a YomiTokuError raised once the attempt ceiling is
exhausted.  Network, subprocess and image encoding are behind this
oracle. -/
abbrev PageOracle := Nat → Except Unit Str

/-- Environment configuration read by ocr_backend: YOMITOKU_MODE,
YOMITOKU_BASE_URL, YOMITOKU_CLI_PATH (raw values; stripping and
lowercasing happen at the use sites, as in the source). -/
structure YTEnv where
  mode : Str
  base_url : Str
  cli_path : Str

/-- Embedding of _ocr_yomitoku_rest: error when the stripped base URL is
empty, otherwise every page is dispatched and a page error propagates
(execute_concurrently re-raises the first failing future's error). -/
def ocr_yomitoku_rest (base_url : Str) (restO : PageOracle) (n : Nat) :
    Except Unit (List Str) :=
  if pyStrip base_url = [] then Except.error ()
  else (List.range n).mapM restO

/-- Embedding of _ocr_yomitoku_cli: error when the stripped CLI path is
empty, otherwise every page is dispatched. -/
def ocr_yomitoku_cli (cli_path : Str) (cliO : PageOracle) (n : Nat) :
    Except Unit (List Str) :=
  if pyStrip cli_path = [] then Except.error ()
  else (List.range n).mapM cliO

/-- Embedding of _run_yomitoku: dispatch on the stripped, lowercased
YOMITOKU_MODE; empty or unknown modes are YomiTokuErrors. -/
def run_yomitoku (env : YTEnv) (restO cliO : PageOracle) (n : Nat) :
    Except Unit (List Str × Str) :=
  let mode := pyLower (pyStrip env.mode)
  if mode = [] then Except.error ()
  else if mode = str "rest" then
    (ocr_yomitoku_rest env.base_url restO n).map (fun ts => (ts, str "yomitoku"))
  else if mode = str "cli" then
    (ocr_yomitoku_cli env.cli_path cliO n).map (fun ts => (ts, str "yomitoku"))
  else Except.error ()

/-- The low-yield measure of ocr_pages: sum over pages of the length of
the stripped page text. -/
def totalStripped (ts : List Str) : Nat := (ts.map fun t => (pyStrip t).length).sum

/-- Embedding of ocr_backend.ocr_pages after rasterization, with the two
local engines as total per-page oracles (`fallbackA` = RapidOCR run on the
preprocessed images, `fallbackB` = PaddleOCR); the spec treats the local
fallback engines as always available.  An error models the ValueError for
an unsupported backend name. -/
def ocr_pages (backend : Str) (env : YTEnv) (restO cliO : PageOracle)
    (fallbackA fallbackB : Nat → Str) (n : Nat) : Except Unit (List Str × Str) :=
  let b := pyLower backend
  if b = str "yomitoku" then
    Except.ok
      (match run_yomitoku env restO cliO n with
       | Except.error _ => ((List.range n).map fallbackA, str "rapidocr")
       | Except.ok (texts, used) =>
         if totalStripped texts < 20 then ((List.range n).map fallbackA, str "rapidocr")
         else (texts, used))
  else if b = str "rapidocr" then
    Except.ok ((List.range n).map fallbackA, str "rapidocr")
  else if b = str "paddleocr" then
    Except.ok ((List.range n).map fallbackB, str "paddleocr")
  else Except.error ()

/-- Embedding of extract.extract_pdf_text after the pdfplumber pass:
`pageTexts` is the embedded text layer page by page, `ocrRes` the outcome
of the ocr_pages call for the whole document (an error models the
RuntimeError the source re-raises when OCR fails irrecoverably). -/
def extract_pdf_text (pageTexts : List Str) (ocrRes : Except Unit (List Str × Str)) :
    Except Unit (List Str × Str) :=
  if 20 ≤ (pyStrip pageTexts.flatten).length then
    Except.ok (pageTexts, str "text-layer")
  else ocrRes

/-- The result-collection loop of utils.execute_concurrently: futures are
consumed in completion order (`order`), each future's result written at
its submission index.  Cells start as None (results = [None] * len(items)
in the source); a present cell holds the worker's result. -/
def fillByCompletion {α β : Type} (f : α → β) (items : List α) (order : List Nat) :
    List (Option β) :=
  order.foldl (fun acc i => acc.set i ((items[i]?).map f))
    (List.replicate items.length none)

/-- Embedding of utils.execute_concurrently: the thread pool is abstracted
to the completion order of the futures, an arbitrary list of indices; the
final list comprehension casts each cell, an identity at runtime, so the
model returns the filled Option cells. -/
def execute_concurrently {α β : Type} (f : α → β) (items : List α)
    (order : List Nat) : List (Option β) :=
  match items with
  | [] => []
  | _ :: _ => fillByCompletion f items order

/-- Request body of POST /api/retry. -/
structure RetryReq where
  task_id : Str
  token : Str

/-- Response of the retry endpoint: notFound models HTTP 404, unavailable
models HTTP 400, ok carries the candidates list. -/
inductive RetryResp where
  | notFound : RetryResp
  | unavailable : RetryResp
  | ok : List Str → RetryResp
deriving DecidableEq, Repr

/-- Embedding of main.retry: 404 when the task id is unknown (TASKS.get
is None); 400 when DB_PATHS has no usable persisted table for the task
(path missing or file gone, both modeled by `dbs task = none`); otherwise
the stored table is re-read, re-indexed, the one token re-matched, and the
truthy matched_hinban values returned. -/
def retryEndpoint (tasks : List Str) (dbs : Str → Option (List Row))
    (req : RetryReq) : RetryResp :=
  if req.task_id ∈ tasks then
    match dbs req.task_id with
    | none => RetryResp.unavailable
    | some tbl =>
      RetryResp.ok
        (((match_token req.token (build_database_index tbl)).filter
            fun m => !m.matched_hinban.isEmpty).map MatchRecord.matched_hinban)
  else RetryResp.notFound

/-- Absence of the canonically composable pair U+0399 U+0308 at two
adjacent positions. -/
abbrev noComp (a b : Char) : Prop := ¬(a.toNat = 0x399 ∧ b.toNat = 0x308)

abbrev pairFree (l : Str) : Prop := List.Chain' noComp l

/-- No two adjacent whitespace characters. -/
abbrev wsRel (a b : Char) : Prop := ¬(isWs a = true ∧ isWs b = true)

abbrev noAdjWs (l : Str) : Prop := List.Chain' wsRel l

/-- A character left unchanged by every per-character stage of normalize,
and equal to an ASCII space if it is whitespace at all. -/
abbrev goodChar (c : Char) : Prop :=
  nfkcChar c = [c] ∧ upperChar c = [c] ∧ dashChar c = c ∧
    (isWs c = true → c = Char.ofNat 32)

abbrev headNotWs (l : Str) : Prop := ∀ c ∈ l.head?, isWs c = false

/-- Invariant of the output of normalize: stage-stable characters, no
composable pair, single spaces only, and no whitespace at either end.
normalize is the identity on such strings. -/
abbrev NormalStr (l : Str) : Prop :=
  (∀ c ∈ l, goodChar c) ∧ pairFree l ∧ noAdjWs l ∧ headNotWs l ∧ headNotWs l.reverse

/-- Single-character view of upperChar away from U+0390. -/
def upperOne (c : Char) : Char :=
  if 97 ≤ c.toNat ∧ c.toNat ≤ 122 then Char.ofNat (c.toNat - 32) else c

/-- Invariant of the scanner accumulator: a reversed run consisting of a
start character followed by body characters. -/
abbrev accInv (acc : Str) : Prop :=
  ∃ hd tl, acc = tl ++ [hd] ∧ isStart hd = true ∧ ∀ c ∈ tl, isBody c = true

/-- Positions (starting at offset i) of the occurrences of q in a column. -/
def occFrom : Nat → List Str → Str → List Nat
  | _, [], _ => []
  | i, v :: vs, q => (if v = q then [i] else []) ++ occFrom (i + 1) vs q

/-! Character-level facts about the normalizer stages. -/

theorem toNat_ofNat_lt {n : Nat} (h : n < 0xd800) : (Char.ofNat n).toNat = n := by
  have hv : n.isValidChar := Or.inl h
  rw [Char.ofNat, dif_pos hv]
  simp [Char.ofNatAux, Char.toNat, UInt32.toNat]

theorem flatten_map_id {f : Char → List Char} (l : Str) (h : ∀ c ∈ l, f c = [c]) :
    (l.map f).flatten = l := by
  induction l with
  | nil => rfl
  | cons c rest ih =>
    simp only [List.map_cons, List.flatten_cons]
    rw [h c (List.mem_cons_self c rest), ih (fun d hd => h d (List.mem_cons_of_mem c hd))]
    rfl

theorem nfkcCompose_of_pairFree : ∀ {l : Str}, pairFree l → nfkcCompose l = l := by
  intro l h
  induction l with
  | nil => rfl
  | cons a rest ih =>
    obtain ⟨hrel, hrest⟩ := List.chain'_cons'.mp h
    have ih' := ih hrest
    simp only [nfkcCompose]
    rw [ih']
    cases rest with
    | nil => rfl
    | cons b tl =>
      dsimp only
      rw [if_neg (hrel b rfl)]

theorem pairFree_nfkcCompose (l : Str) : pairFree (nfkcCompose l) := by
  induction l with
  | nil => exact List.chain'_nil
  | cons a rest ih =>
    simp only [nfkcCompose]
    cases hr : nfkcCompose rest with
    | nil =>
      exact List.chain'_singleton a
    | cons b tl =>
      rw [hr] at ih
      dsimp only
      by_cases hc : a.toNat = 0x399 ∧ b.toNat = 0x308
      · rw [if_pos hc]
        refine List.chain'_cons'.mpr ⟨?_, (List.chain'_cons'.mp ih).2⟩
        intro y _hy hbad
        have h1 : (Char.ofNat 0x3AA).toNat = 0x3AA := toNat_ofNat_lt (by omega)
        omega
      · rw [if_neg hc]
        exact List.chain'_cons.mpr ⟨hc, ih⟩

theorem mem_nfkcCompose : ∀ {l : Str} {c : Char},
    c ∈ nfkcCompose l → c ∈ l ∨ c = Char.ofNat 0x3AA := by
  intro l
  induction l with
  | nil => intro c h; simp [nfkcCompose] at h
  | cons a rest ih =>
    intro c h
    simp only [nfkcCompose] at h
    cases hr : nfkcCompose rest with
    | nil =>
      rw [hr] at h
      dsimp only at h
      simp only [List.mem_singleton] at h
      exact Or.inl (h ▸ List.mem_cons_self a rest)
    | cons b tl =>
      rw [hr] at h
      dsimp only at h
      by_cases hc : a.toNat = 0x399 ∧ b.toNat = 0x308
      · rw [if_pos hc] at h
        rcases List.mem_cons.mp h with h1 | h2
        · exact Or.inr h1
        · have hc2 : c ∈ nfkcCompose rest := by
            rw [hr]; exact List.mem_cons_of_mem b h2
          rcases ih hc2 with h3 | h3
          · exact Or.inl (List.mem_cons_of_mem a h3)
          · exact Or.inr h3
      · rw [if_neg hc] at h
        rcases List.mem_cons.mp h with h1 | h2
        · exact Or.inl (h1 ▸ List.mem_cons_self a rest)
        · have hc2 : c ∈ nfkcCompose rest := by rw [hr]; exact h2
          rcases ih hc2 with h3 | h3
          · exact Or.inl (List.mem_cons_of_mem a h3)
          · exact Or.inr h3

theorem nfkcChar_cases {c d : Char} (h : d ∈ nfkcChar c) :
    (32 ≤ d.toNat ∧ d.toNat ≤ 126) ∨
      (d = c ∧ ¬(0xFF01 ≤ c.toNat ∧ c.toNat ≤ 0xFF5E) ∧ c.toNat ≠ 0x3000) := by
  unfold nfkcChar at h
  split at h
  case isTrue hfw =>
    rw [List.mem_singleton] at h
    left
    rw [h, toNat_ofNat_lt (by omega)]
    omega
  case isFalse hfw =>
    split at h
    case isTrue h3 =>
      rw [List.mem_singleton] at h
      left
      rw [h, toNat_ofNat_lt (by omega)]
      omega
    case isFalse h3 =>
      rw [List.mem_singleton] at h
      exact Or.inr ⟨h, hfw, h3⟩

theorem nfkcChar_fix_of_ascii {d : Char} (h1 : 32 ≤ d.toNat) (h2 : d.toNat ≤ 126) :
    nfkcChar d = [d] := by
  unfold nfkcChar
  rw [if_neg (by omega), if_neg (by omega)]

theorem upperChar_fix_of_upper {d : Char} (h1 : 32 ≤ d.toNat) (h2 : d.toNat ≤ 96) :
    upperChar d = [d] := by
  unfold upperChar
  rw [if_neg (by omega), if_neg (by omega)]

theorem nfkc_stable_chars {l : Str} (h390 : ∀ c ∈ l, c.toNat ≠ 0x390) :
    (∀ d ∈ nfkc l, nfkcChar d = [d] ∧ d.toNat ≠ 0x390) ∧ pairFree (nfkc l) := by
  refine ⟨?_, pairFree_nfkcCompose _⟩
  intro d hd
  unfold nfkc at hd
  rcases mem_nfkcCompose hd with hm | h3aa
  · rw [List.mem_flatten] at hm
    obtain ⟨seg, hseg, hdseg⟩ := hm
    rw [List.mem_map] at hseg
    obtain ⟨c, hc, rfl⟩ := hseg
    rcases nfkcChar_cases hdseg with ⟨h1, h2⟩ | ⟨rfl, hh1, hh2⟩
    · exact ⟨nfkcChar_fix_of_ascii h1 h2, by omega⟩
    · refine ⟨?_, h390 d hc⟩
      unfold nfkcChar
      rw [if_neg hh1, if_neg hh2]
  · subst h3aa
    have ht : (Char.ofNat 0x3AA).toNat = 0x3AA := toNat_ofNat_lt (by omega)
    refine ⟨?_, by omega⟩
    unfold nfkcChar
    rw [if_neg (by omega), if_neg (by omega)]

theorem upperOne_cases (c : Char) :
    (65 ≤ (upperOne c).toNat ∧ (upperOne c).toNat ≤ 90 ∧ 97 ≤ c.toNat ∧ c.toNat ≤ 122) ∨
      (upperOne c = c ∧ ¬(97 ≤ c.toNat ∧ c.toNat ≤ 122)) := by
  unfold upperOne
  split
  case isTrue h =>
    left
    rw [toNat_ofNat_lt (by omega)]
    omega
  case isFalse h => exact Or.inr ⟨rfl, h⟩

theorem pyUpper_eq_map {l : Str} (h390 : ∀ c ∈ l, c.toNat ≠ 0x390) :
    pyUpper l = l.map upperOne := by
  unfold pyUpper
  induction l with
  | nil => rfl
  | cons c rest ih =>
    simp only [List.map_cons, List.flatten_cons]
    rw [ih (fun d hd => h390 d (List.mem_cons_of_mem c hd))]
    have hc : upperChar c = [upperOne c] := by
      unfold upperChar upperOne
      rw [if_neg (h390 c (List.mem_cons_self c rest))]
      split
      · rfl
      · rfl
    rw [hc]
    rfl

theorem upper_stage_facts {l : Str} (h390 : ∀ c ∈ l, c.toNat ≠ 0x390)
    (hstable : ∀ c ∈ l, nfkcChar c = [c]) (hpf : pairFree l) :
    (∀ d ∈ l.map upperOne, nfkcChar d = [d] ∧ upperChar d = [d]) ∧
      pairFree (l.map upperOne) := by
  constructor
  · intro d hd
    rw [List.mem_map] at hd
    obtain ⟨c, hc, rfl⟩ := hd
    rcases upperOne_cases c with ⟨h1, h2, _, _⟩ | ⟨heq, hnl⟩
    · exact ⟨nfkcChar_fix_of_ascii (by omega) (by omega),
        upperChar_fix_of_upper (by omega) (by omega)⟩
    · rw [heq]
      refine ⟨hstable c hc, ?_⟩
      unfold upperChar
      rw [if_neg (h390 c hc), if_neg hnl]
  · refine (List.chain'_map _).mpr (hpf.imp ?_)
    intro a b hab habs
    apply hab
    obtain ⟨ha, hb⟩ := habs
    constructor
    · rcases upperOne_cases a with ⟨h1, h2, _, _⟩ | ⟨heq, _⟩
      · omega
      · rw [heq] at ha; exact ha
    · rcases upperOne_cases b with ⟨h1, h2, _, _⟩ | ⟨heq, _⟩
      · omega
      · rw [heq] at hb; exact hb

theorem dashChar_cases (c : Char) :
    dashChar c = Char.ofNat 45 ∨ (dashChar c = c ∧ c.toNat ≠ 0x2013 ∧ c.toNat ≠ 0x2014 ∧ c.toNat ≠ 0x2212) := by
  unfold dashChar
  split
  case isTrue h => exact Or.inl rfl
  case isFalse h => exact Or.inr ⟨rfl, by omega, by omega, by omega⟩

theorem dash_stage_facts {l : Str}
    (hst : ∀ d ∈ l, nfkcChar d = [d] ∧ upperChar d = [d]) (hpf : pairFree l) :
    (∀ d ∈ l.map dashChar, nfkcChar d = [d] ∧ upperChar d = [d] ∧ dashChar d = d) ∧
      pairFree (l.map dashChar) := by
  constructor
  · intro d hd
    rw [List.mem_map] at hd
    obtain ⟨c, hc, rfl⟩ := hd
    rcases dashChar_cases c with heq | ⟨heq, _⟩
    · rw [heq]
      exact ⟨by decide, by decide, by decide⟩
    · rw [heq]
      exact ⟨(hst c hc).1, (hst c hc).2, heq⟩
  · refine (List.chain'_map _).mpr (hpf.imp ?_)
    intro a b hab habs
    apply hab
    obtain ⟨ha, hb⟩ := habs
    have h45 : (Char.ofNat 45).toNat = 45 := toNat_ofNat_lt (by omega)
    constructor
    · rcases dashChar_cases a with heq | ⟨heq, _⟩
      · rw [heq] at ha; omega
      · rw [heq] at ha; exact ha
    · rcases dashChar_cases b with heq | ⟨heq, _⟩
      · rw [heq] at hb; omega
      · rw [heq] at hb; exact hb

theorem mem_collapseWs : ∀ {l : Str} {c : Char},
    c ∈ collapseWs l → c = Char.ofNat 32 ∨ (c ∈ l ∧ isWs c = false) := by
  intro l
  induction l with
  | nil => intro c h; simp [collapseWs] at h
  | cons a rest ih =>
    intro c h
    simp only [collapseWs] at h
    cases hr : collapseWs rest with
    | nil =>
      rw [hr] at h
      dsimp only at h
      by_cases hw : isWs a
      · rw [if_pos hw] at h
        rw [List.mem_singleton] at h
        exact Or.inl h
      · rw [if_neg hw] at h
        rw [List.mem_singleton] at h
        right
        rw [h]
        exact ⟨List.mem_cons_self a rest, by simpa using hw⟩
    | cons d tl =>
      rw [hr] at h
      dsimp only at h
      have htl : ∀ x ∈ d :: tl, x = Char.ofNat 32 ∨ (x ∈ rest ∧ isWs x = false) := by
        intro x hx
        have : x ∈ collapseWs rest := by rw [hr]; exact hx
        exact ih this
      by_cases hw : isWs a
      · rw [if_pos hw] at h
        by_cases hd : d = Char.ofNat 32
        · rw [if_pos hd] at h
          rcases List.mem_cons.mp h with h1 | h2
          · exact Or.inl h1
          · rcases htl c (List.mem_cons_of_mem d h2) with h3 | ⟨h3, h4⟩
            · exact Or.inl h3
            · exact Or.inr ⟨List.mem_cons_of_mem a h3, h4⟩
        · rw [if_neg hd] at h
          rcases List.mem_cons.mp h with h1 | h2
          · exact Or.inl h1
          · rcases htl c h2 with h3 | ⟨h3, h4⟩
            · exact Or.inl h3
            · exact Or.inr ⟨List.mem_cons_of_mem a h3, h4⟩
      · rw [if_neg hw] at h
        rcases List.mem_cons.mp h with h1 | h2
        · right
          rw [h1]
          exact ⟨List.mem_cons_self a rest, by simpa using hw⟩
        · rcases htl c h2 with h3 | ⟨h3, h4⟩
          · exact Or.inl h3
          · exact Or.inr ⟨List.mem_cons_of_mem a h3, h4⟩

theorem collapseWs_head : ∀ {l : Str} {d : Char}, (collapseWs l).head? = some d →
    (d = Char.ofNat 32 ∧ ∃ c, l.head? = some c ∧ isWs c = true) ∨
      (l.head? = some d ∧ isWs d = false) := by
  intro l d h
  cases l with
  | nil => simp [collapseWs] at h
  | cons a rest =>
    simp only [collapseWs] at h
    cases hr : collapseWs rest with
    | nil =>
      rw [hr] at h
      dsimp only at h
      by_cases hw : isWs a
      · rw [if_pos hw] at h
        simp only [List.head?_cons, Option.some.injEq] at h
        exact Or.inl ⟨h.symm, a, rfl, hw⟩
      · rw [if_neg hw] at h
        simp only [List.head?_cons, Option.some.injEq] at h
        exact Or.inr ⟨by simp [h], by rw [← h]; simpa using hw⟩
    | cons e tl =>
      rw [hr] at h
      dsimp only at h
      by_cases hw : isWs a
      · rw [if_pos hw] at h
        by_cases he : e = Char.ofNat 32
        · rw [if_pos he] at h
          simp only [List.head?_cons, Option.some.injEq] at h
          exact Or.inl ⟨h.symm, a, rfl, hw⟩
        · rw [if_neg he] at h
          simp only [List.head?_cons, Option.some.injEq] at h
          exact Or.inl ⟨h.symm, a, rfl, hw⟩
      · rw [if_neg hw] at h
        simp only [List.head?_cons, Option.some.injEq] at h
        exact Or.inr ⟨by simp [h], by rw [← h]; simpa using hw⟩

theorem noAdjWs_collapseWs : ∀ (l : Str), noAdjWs (collapseWs l) := by
  intro l
  induction l with
  | nil => exact List.chain'_nil
  | cons a rest ih =>
    simp only [collapseWs]
    cases hr : collapseWs rest with
    | nil =>
      dsimp only
      split
      · exact List.chain'_singleton _
      · exact List.chain'_singleton _
    | cons d tl =>
      rw [hr] at ih
      dsimp only
      by_cases hw : isWs a
      · rw [if_pos hw]
        by_cases hd : d = Char.ofNat 32
        · rw [if_pos hd]
          refine List.chain'_cons'.mpr ⟨?_, (List.chain'_cons'.mp ih).2⟩
          intro y hy
          have hrel := (List.chain'_cons'.mp ih).1 y hy
          intro ⟨_, hy2⟩
          exact hrel ⟨by rw [hd]; decide, hy2⟩
        · rw [if_neg hd]
          refine List.chain'_cons.mpr ⟨?_, ih⟩
          intro ⟨_, hd2⟩
          have hh : (collapseWs rest).head? = some d := by simp [hr]
          rcases collapseWs_head hh with ⟨h32, _⟩ | ⟨_, hdw⟩
          · exact hd h32
          · rw [hdw] at hd2
            cases hd2
      · rw [if_neg hw]
        refine List.chain'_cons.mpr ⟨?_, ih⟩
        intro ⟨ha, _⟩
        rw [ha] at hw
        cases hw rfl

theorem pairFree_collapseWs : ∀ {l : Str}, pairFree l → pairFree (collapseWs l) := by
  intro l h
  induction l with
  | nil => exact List.chain'_nil
  | cons a rest ih =>
    have hrest : pairFree rest := (List.chain'_cons'.mp h).2
    have hrel := (List.chain'_cons'.mp h).1
    have ih' := ih hrest
    simp only [collapseWs]
    cases hr : collapseWs rest with
    | nil =>
      dsimp only
      split
      · exact List.chain'_singleton _
      · exact List.chain'_singleton _
    | cons d tl =>
      rw [hr] at ih'
      dsimp only
      have h32 : (Char.ofNat 32).toNat = 32 := by decide
      by_cases hw : isWs a
      · rw [if_pos hw]
        by_cases hd : d = Char.ofNat 32
        · rw [if_pos hd]
          refine List.chain'_cons'.mpr ⟨?_, (List.chain'_cons'.mp ih').2⟩
          intro y hy ⟨h1, _⟩
          omega
        · rw [if_neg hd]
          refine List.chain'_cons.mpr ⟨?_, ih'⟩
          intro ⟨h1, _⟩
          omega
      · rw [if_neg hw]
        refine List.chain'_cons.mpr ⟨?_, ih'⟩
        have hh : (collapseWs rest).head? = some d := by simp [hr]
        rcases collapseWs_head hh with ⟨h32', _⟩ | ⟨hhd, _⟩
        · intro ⟨_, h2⟩
          rw [h32'] at h2
          omega
        · intro hc
          cases rest with
          | nil => simp [collapseWs] at hr
          | cons b tl2 =>
            simp only [List.head?_cons, Option.some.injEq] at hhd
            exact hrel b rfl (hhd ▸ hc)

theorem collapseWs_fix : ∀ {l : Str},
    (∀ c ∈ l, isWs c = true → c = Char.ofNat 32) → noAdjWs l → collapseWs l = l := by
  intro l hws hadj
  induction l with
  | nil => rfl
  | cons a rest ih =>
    have hrest := ih (fun c hc => hws c (List.mem_cons_of_mem a hc))
      (List.chain'_cons'.mp hadj).2
    simp only [collapseWs]
    rw [hrest]
    cases rest with
    | nil =>
      dsimp only
      by_cases hw : isWs a
      · rw [if_pos hw, hws a (List.mem_cons_self a []) hw]
      · rw [if_neg hw]
    | cons b tl =>
      dsimp only
      by_cases hw : isWs a
      · rw [if_pos hw]
        have ha32 := hws a (List.mem_cons_self _ _) hw
        have hbnw : isWs b = false := by
          have := (List.chain'_cons'.mp hadj).1 b rfl
          by_contra hb
          exact this ⟨hw, by simpa using hb⟩
        rw [if_neg ?_]
        · rw [ha32]
        · intro hb32
          rw [hb32] at hbnw
          simp [isWs] at hbnw
      · rw [if_neg hw]

theorem chain'_dropWhile {R : Char → Char → Prop} {p : Char → Bool} {l : Str}
    (h : List.Chain' R l) : List.Chain' R (l.dropWhile p) := by
  obtain ⟨pre, hpre⟩ := List.dropWhile_suffix (l := l) p
  rw [← hpre] at h
  exact h.right_of_append

theorem head_dropWhile_not (p : Char → Bool) (l : Str) :
    ∀ c ∈ (l.dropWhile p).head?, p c = false := by
  induction l with
  | nil => intro c h; simp at h
  | cons a rest ih =>
    intro c h
    rw [List.dropWhile_cons] at h
    by_cases hp : p a
    · rw [if_pos hp] at h
      exact ih c h
    · rw [if_neg hp] at h
      simp only [List.head?_cons, Option.mem_def, Option.some.injEq] at h
      rw [← h]
      simpa using hp

theorem mem_trimWs {l : Str} {c : Char} (h : c ∈ trimWs l) : c ∈ l := by
  unfold trimWs at h
  rw [List.mem_reverse] at h
  have h1 := (List.dropWhile_sublist (l := (l.dropWhile fun c => isWs c).reverse)
    (fun c => isWs c)).subset h
  rw [List.mem_reverse] at h1
  exact (List.dropWhile_sublist (fun c => isWs c)).subset h1

theorem chain'_trimWs {R : Char → Char → Prop} {l : Str} (h : List.Chain' R l) :
    List.Chain' R (trimWs l) := by
  unfold trimWs
  rw [List.chain'_reverse]
  apply chain'_dropWhile
  rw [List.chain'_reverse]
  exact chain'_dropWhile h

theorem getLast?_dropWhile_of_ne_nil {p : Char → Bool} {Z : Str}
    (h : Z.dropWhile p ≠ []) : (Z.dropWhile p).getLast? = Z.getLast? := by
  conv_rhs => rw [← List.takeWhile_append_dropWhile p Z]
  rw [List.getLast?_append]
  cases hD : (Z.dropWhile p).getLast? with
  | none => exact absurd (List.getLast?_eq_none_iff.mp hD) h
  | some y => simp

theorem trimWs_head (l : Str) : headNotWs (trimWs l) := by
  intro c hc
  unfold trimWs at hc
  rw [List.head?_reverse] at hc
  by_cases hD : (l.dropWhile (fun c => isWs c)).reverse.dropWhile (fun c => isWs c) = []
  · rw [hD] at hc
    simp at hc
  · rw [getLast?_dropWhile_of_ne_nil hD, List.getLast?_reverse] at hc
    exact head_dropWhile_not _ l c hc

theorem trimWs_last (l : Str) : headNotWs (trimWs l).reverse := by
  intro c hc
  unfold trimWs at hc
  rw [List.reverse_reverse] at hc
  exact head_dropWhile_not _ _ c hc

theorem trimWs_fix {l : Str} (hhd : headNotWs l) (hlast : headNotWs l.reverse) :
    trimWs l = l := by
  have hdw : ∀ (m : Str), headNotWs m → m.dropWhile (fun c => isWs c) = m := by
    intro m hm
    cases m with
    | nil => rfl
    | cons a rest =>
      rw [List.dropWhile_cons, if_neg]
      rw [hm a rfl]
      simp
  unfold trimWs
  rw [hdw l hhd, hdw l.reverse hlast, List.reverse_reverse]

theorem normalize_NormalStr {l : Str} (h390 : ∀ c ∈ l, c.toNat ≠ 0x390) :
    NormalStr (normalize l) := by
  have hn := nfkc_stable_chars h390
  have hup := upper_stage_facts (fun d hd => (hn.1 d hd).2) (fun d hd => (hn.1 d hd).1) hn.2
  have hdash := dash_stage_facts hup.1 hup.2
  have hrw : pyUpper (nfkc l) = (nfkc l).map upperOne :=
    pyUpper_eq_map (fun d hd => (hn.1 d hd).2)
  have hcol_mem := @mem_collapseWs (((nfkc l).map upperOne).map dashChar)
  have hcol_pf := pairFree_collapseWs hdash.2
  have hcol_adj := noAdjWs_collapseWs (((nfkc l).map upperOne).map dashChar)
  unfold normalize dashFix
  rw [hrw]
  refine ⟨?_, chain'_trimWs hcol_pf, chain'_trimWs hcol_adj, trimWs_head _, trimWs_last _⟩
  intro c hc
  have hc2 := mem_trimWs hc
  rcases hcol_mem hc2 with h32 | ⟨hmem, hnw⟩
  · rw [h32]
    refine ⟨by decide, by decide, by decide, fun _ => rfl⟩
  · obtain ⟨ha, hb, hcq⟩ := hdash.1 c hmem
    exact ⟨ha, hb, hcq, fun hw => absurd hw (by simp [hnw])⟩

theorem normalize_of_NormalStr {r : Str} (hr : NormalStr r) : normalize r = r := by
  obtain ⟨hgood, hpf, hadj, hhd, hlast⟩ := hr
  have h1 : nfkc r = r := by
    unfold nfkc
    rw [flatten_map_id r (fun c hc => (hgood c hc).1)]
    exact nfkcCompose_of_pairFree hpf
  have h2 : pyUpper r = r := flatten_map_id r (fun c hc => (hgood c hc).2.1)
  have h3 : dashFix r = r := by
    unfold dashFix
    rw [List.map_congr_left (fun c hc => (hgood c hc).2.2.1)]
    exact List.map_id r
  have h4 : collapseWs r = r :=
    collapseWs_fix (fun c hc => (hgood c hc).2.2.2) hadj
  have h5 : trimWs r = r := trimWs_fix hhd hlast
  show trimWs (collapseWs (dashFix (pyUpper (nfkc r)))) = r
  rw [h1, h2, h3, h4, h5]

/-- C6 counterexample: the claim that normalize is idempotent for all
strings fails on the code.  For U+0390 (Greek small letter iota with
dialytika and tonos) NFKC is the identity, but Python's str.upper expands
it to the three characters U+0399 U+0308 U+0301 (SpecialCasing.txt); a
second normalize then canonically composes U+0399 U+0308 to U+03AA, so
normalize(normalize(s)) has two characters while normalize(s) has three. -/
theorem normalize_not_idempotent_cex :
    normalize (normalize [Char.ofNat 0x390]) ≠ normalize [Char.ofNat 0x390] := by
  decide

/-- C6 (amended): normalize is idempotent on every string that contains no
character whose uppercase expansion is canonically composable — in the
modeled repertoire, every string without U+0390.  This covers all ASCII,
full-width, dash and whitespace inputs the pipeline processes. -/
theorem normalize_idempotent_amended (l : Str) (h : ∀ c ∈ l, c.toNat ≠ 0x390) :
    normalize (normalize l) = normalize l :=
  normalize_of_NormalStr (normalize_NormalStr h)

/-- Witness for the amended C6 at a concrete full-width input. -/
theorem normalize_idempotent_amended_witness :
    normalize (normalize (str "ａｂ－１２３ｃ")) = normalize (str "ａｂ－１２３ｃ") :=
  normalize_idempotent_amended _ (by decide)

/-! Sorting and membership lemmas for the token extractor. -/

theorem mem_insertTok {x t : Str} : ∀ {l : List Str}, x ∈ insertTok t l ↔ x = t ∨ x ∈ l := by
  intro l
  induction l with
  | nil => simp [insertTok]
  | cons u us ih =>
    simp only [insertTok]
    split
    · exact List.mem_cons
    · rw [List.mem_cons, ih, List.mem_cons]
      tauto

theorem mem_sortToks {x : Str} : ∀ {l : List Str}, x ∈ sortToks l ↔ x ∈ l := by
  intro l
  induction l with
  | nil => simp [sortToks]
  | cons t l ih =>
    show x ∈ insertTok t (l.foldr insertTok []) ↔ _
    rw [mem_insertTok]
    rw [show (l.foldr insertTok []) = sortToks l from rfl, ih, List.mem_cons]

theorem insertTok_perm (t : Str) : ∀ (l : List Str), List.Perm (insertTok t l) (t :: l) := by
  intro l
  induction l with
  | nil => exact List.Perm.refl _
  | cons u us ih =>
    simp only [insertTok]
    split
    · exact List.Perm.refl _
    · exact (ih.cons u).trans (List.Perm.swap t u us)

theorem sortToks_perm : ∀ (l : List Str), List.Perm (sortToks l) l := by
  intro l
  induction l with
  | nil => exact List.Perm.refl _
  | cons t l ih =>
    show List.Perm (insertTok t (l.foldr insertTok [])) _
    exact (insertTok_perm t _).trans (ih.cons t)

theorem strLtB_asymm : ∀ {a b : Str}, strLtB a b = true → strLtB b a = false := by
  intro a
  induction a with
  | nil =>
    intro b h
    cases b with
    | nil => simp [strLtB] at h
    | cons d bs => rfl
  | cons c as ih =>
    intro b h
    cases b with
    | nil => simp [strLtB] at h
    | cons d bs =>
      simp only [strLtB] at h ⊢
      by_cases hcd : c = d
      · rw [if_pos hcd] at h
        rw [if_pos hcd.symm]
        subst hcd
        exact ih h
      · rw [if_neg hcd] at h
        rw [if_neg (Ne.symm hcd)]
        simp only [decide_eq_true_eq] at h
        simp only [decide_eq_false_iff_not]
        exact lt_asymm h

theorem strLtB_total : ∀ {a b : Str}, a ≠ b → strLtB a b = true ∨ strLtB b a = true := by
  intro a
  induction a with
  | nil =>
    intro b hne
    cases b with
    | nil => exact absurd rfl hne
    | cons d bs => exact Or.inl rfl
  | cons c as ih =>
    intro b hne
    cases b with
    | nil => exact Or.inr rfl
    | cons d bs =>
      by_cases hcd : c = d
      · subst hcd
        have hne2 : as ≠ bs := fun h => hne (by rw [h])
        rcases ih hne2 with h | h
        · left; simp [strLtB, h]
        · right; simp [strLtB, h]
      · rcases lt_trichotomy c d with hlt | heq | hgt
        · left; simp [strLtB, if_neg hcd, hlt]
        · exact absurd heq hcd
        · right; simp [strLtB, if_neg (Ne.symm hcd), hgt]

theorem insertTok_head (t : Str) (l : List Str) :
    (insertTok t l).head? = some t ∨ (insertTok t l).head? = l.head? := by
  cases l with
  | nil => exact Or.inl rfl
  | cons u us =>
    simp only [insertTok]
    split
    · exact Or.inl rfl
    · exact Or.inr rfl

theorem chain'_le_insertTok (t : Str) :
    ∀ {l : List Str}, List.Chain' (fun a b => strLtB b a = false) l →
      List.Chain' (fun a b => strLtB b a = false) (insertTok t l) := by
  intro l h
  induction l with
  | nil => exact List.chain'_singleton _
  | cons u us ih =>
    simp only [insertTok]
    split
    case isTrue hlt =>
      exact List.chain'_cons.mpr ⟨strLtB_asymm hlt, h⟩
    case isFalse hge =>
      have hrest := (List.chain'_cons'.mp h).2
      have hrel := (List.chain'_cons'.mp h).1
      refine List.chain'_cons'.mpr ⟨?_, ih hrest⟩
      intro y hy
      rcases insertTok_head t us with hh | hh
      · rw [hh] at hy
        cases hy
        simpa using hge
      · rw [hh] at hy
        exact hrel y hy

theorem chain'_le_sortToks (l : List Str) :
    List.Chain' (fun a b => strLtB b a = false) (sortToks l) := by
  induction l with
  | nil => exact List.chain'_nil
  | cons t l ih =>
    show List.Chain' _ (insertTok t (l.foldr insertTok []))
    exact chain'_le_insertTok t ih

theorem chain'_lt_of_le_nodup : ∀ {l : List Str},
    List.Chain' (fun a b => strLtB b a = false) l → l.Nodup →
      List.Chain' (fun a b => strLtB a b = true) l := by
  intro l h hn
  induction l with
  | nil => exact List.chain'_nil
  | cons a l ih =>
    have hrest := (List.chain'_cons'.mp h).2
    have hrel := (List.chain'_cons'.mp h).1
    have hn2 := (List.nodup_cons.mp hn).2
    have hna := (List.nodup_cons.mp hn).1
    refine List.chain'_cons'.mpr ⟨?_, ih hrest hn2⟩
    intro y hy
    have hyl : y ∈ l := by
      cases l with
      | nil => cases hy
      | cons b bs =>
        cases hy
        exact List.mem_cons_self _ _
    have hne : a ≠ y := fun h => hna (h ▸ hyl)
    rcases strLtB_total hne with h1 | h1
    · exact h1
    · rw [hrel y hy] at h1
      cases h1

/-! Structure of the matches produced by the TOKEN_PATTERN scanner. -/

theorem goTok_shape : ∀ (l : Str) (cur : Option Str) (t : Str),
    (∀ acc, cur = some acc → accInv acc) → t ∈ goTok cur l →
      ∃ hd tl, t = hd :: tl ∧ isStart hd = true ∧ (∀ c ∈ tl, isBody c = true) ∧
        4 ≤ t.length := by
  intro l
  induction l with
  | nil =>
    intro cur t hinv ht
    cases cur with
    | none => simp [goTok] at ht
    | some acc =>
      simp only [goTok] at ht
      split at ht
      case isTrue hlen =>
        rw [List.mem_singleton] at ht
        obtain ⟨hd, tl, hacc, hs, hb⟩ := hinv acc rfl
        refine ⟨hd, tl.reverse, ?_, hs, ?_, ?_⟩
        · rw [ht, hacc]
          simp
        · intro c hc
          exact hb c (List.mem_reverse.mp hc)
        · rw [ht]
          simpa using hlen
      case isFalse => simp at ht
  | cons c rest ih =>
    intro cur t hinv ht
    cases cur with
    | none =>
      simp only [goTok] at ht
      split at ht
      case isTrue hs =>
        refine ih (some [c]) t ?_ ht
        intro acc heq
        cases heq
        exact ⟨c, [], rfl, hs, by simp⟩
      case isFalse => exact ih none t (fun acc h => by cases h) ht
    | some acc =>
      simp only [goTok] at ht
      split at ht
      case isTrue hbody =>
        refine ih (some (c :: acc)) t ?_ ht
        intro acc' heq
        cases heq
        obtain ⟨hd, tl, hacc, hs, hbt⟩ := hinv acc rfl
        refine ⟨hd, c :: tl, by rw [hacc]; rfl, hs, ?_⟩
        intro x hx
        rcases List.mem_cons.mp hx with rfl | hx
        · exact hbody
        · exact hbt x hx
      case isFalse =>
        rcases List.mem_append.mp ht with h1 | h2
        · split at h1
          case isTrue hlen =>
            rw [List.mem_singleton] at h1
            obtain ⟨hd, tl, hacc, hs, hb⟩ := hinv acc rfl
            refine ⟨hd, tl.reverse, ?_, hs, ?_, ?_⟩
            · rw [h1, hacc]
              simp
            · intro x hx
              exact hb x (List.mem_reverse.mp hx)
            · rw [h1]
              simpa using hlen
          case isFalse => simp at h1
        · exact ih none t (fun acc h => by cases h) h2

theorem infix_extend_left {t l₂ : Str} (l₁ : Str) (h : t <:+: l₂) : t <:+: l₁ ++ l₂ := by
  obtain ⟨s, u, hsu⟩ := h
  exact ⟨l₁ ++ s, u, by rw [← hsu]; simp⟩

theorem goTok_isInfix : ∀ (l : Str) (cur : Option Str) (t : Str),
    t ∈ goTok cur l →
      t <:+: ((match cur with | none => [] | some acc => acc.reverse) ++ l) := by
  intro l
  induction l with
  | nil =>
    intro cur t ht
    cases cur with
    | none => simp [goTok] at ht
    | some acc =>
      simp only [goTok] at ht
      split at ht
      case isTrue =>
        rw [List.mem_singleton] at ht
        rw [ht]
        simp
      case isFalse => simp at ht
  | cons c rest ih =>
    intro cur t ht
    cases cur with
    | none =>
      simp only [goTok] at ht
      split at ht
      case isTrue =>
        have h2 := ih (some [c]) t ht
        simpa using h2
      case isFalse =>
        have h2 := ih none t ht
        simp only [List.nil_append] at h2 ⊢
        exact List.infix_cons h2
    | some acc =>
      simp only [goTok] at ht
      split at ht
      case isTrue =>
        have h2 := ih (some (c :: acc)) t ht
        simp only [List.reverse_cons, List.append_assoc] at h2
        simpa using h2
      case isFalse =>
        rcases List.mem_append.mp ht with h1 | h2
        · split at h1
          case isTrue =>
            rw [List.mem_singleton] at h1
            rw [h1]
            exact ⟨[], c :: rest, by simp⟩
          case isFalse => simp at h1
        · have h3 := ih none t h2
          simp only [List.nil_append] at h3
          exact infix_extend_left _ (List.infix_cons h3)

/-- Membership in the final token list in terms of the scanner and the
filter of the source. -/
theorem mem_extract_tokens {s t : Str} :
    t ∈ extract_tokens s ↔ t ∈ findTokens (normalize s) ∧ keepToken t = true := by
  unfold extract_tokens
  rw [mem_sortToks, List.mem_dedup, List.mem_filter]

theorem isBody_ranges {c : Char} (h : isBody c = true) :
    (65 ≤ c.toNat ∧ c.toNat ≤ 90) ∨ (48 ≤ c.toNat ∧ c.toNat ≤ 57) ∨
      c.toNat = 45 ∨ c.toNat = 95 ∨ c.toNat = 47 := by
  simp only [isBody, isStart, Bool.or_eq_true, decide_eq_true_eq] at h
  tauto

theorem goodChar_of_body {c : Char} (h : isBody c = true) :
    goodChar c ∧ c.toNat ≠ 0x399 ∧ isWs c = false := by
  have hr := isBody_ranges h
  have h1 : 32 ≤ c.toNat ∧ c.toNat ≤ 96 := by omega
  have hws : isWs c = false := by
    simp only [isWs, decide_eq_false_iff_not]
    omega
  refine ⟨⟨nfkcChar_fix_of_ascii h1.1 (by omega), upperChar_fix_of_upper h1.1 h1.2,
    ?_, fun hw => absurd hw (by simp [hws])⟩, by omega, hws⟩
  unfold dashChar
  rw [if_neg (by omega)]

theorem chain'_of_all {R : Char → Char → Prop} :
    ∀ {l : Str}, (∀ a ∈ l, ∀ b, R a b) → List.Chain' R l := by
  intro l h
  induction l with
  | nil => exact List.chain'_nil
  | cons a l ih =>
    refine List.chain'_cons'.mpr ⟨fun y _ => h a (List.mem_cons_self a l) y,
      ih (fun x hx b => h x (List.mem_cons_of_mem a hx) b)⟩

/-- C10: every token returned by extract_tokens is a fixpoint of the
Normalizer, so match_token applied to an extracted token looks it up
verbatim.  Tokens consist only of the pattern alphabet A-Z 0-9 - _ /
on which every normalize stage is the identity. -/
theorem extract_tokens_normalize_fixpoint (s t : Str) (h : t ∈ extract_tokens s) :
    normalize t = t := by
  have hmem := (mem_extract_tokens.mp h).1
  obtain ⟨hd, tl, rfl, hs, hb, _⟩ :=
    goTok_shape (normalize s) none t (fun acc h => by cases h) hmem
  have hall : ∀ c ∈ hd :: tl, isBody c = true := by
    intro c hc
    rcases List.mem_cons.mp hc with rfl | hc
    · simp [isBody, hs]
    · exact hb c hc
  have hgood := fun c hc => goodChar_of_body (hall c hc)
  apply normalize_of_NormalStr
  refine ⟨fun c hc => (hgood c hc).1, ?_, ?_, ?_, ?_⟩
  · refine chain'_of_all ?_
    intro a ha b hab
    exact absurd hab.1 (hgood a ha).2.1
  · refine chain'_of_all ?_
    intro a ha b hab
    rw [(hgood a ha).2.2] at hab
    cases hab.1
  · intro c hc
    simp only [List.head?_cons, Option.mem_def, Option.some.injEq] at hc
    rw [← hc]
    exact (hgood hd (List.mem_cons_self hd tl)).2.2
  · intro c hc
    have hc2 : c ∈ (hd :: tl).reverse := List.mem_of_mem_head? hc
    rw [List.mem_reverse] at hc2
    exact (hgood c hc2).2.2

/-- Witness for C10 on the token AB-1234 extracted from the spec's
example page. -/
theorem extract_tokens_normalize_fixpoint_witness :
    normalize (str "AB-1234") = str "AB-1234" :=
  extract_tokens_normalize_fixpoint (str "SCALE 2024\n新規モデル: AB-1234")
    (str "AB-1234") (by decide)

/-- C5: extract_tokens returns a deduplicated, lexicographically sorted
list; a string belongs to the output exactly when the TOKEN_PATTERN scan
of the normalized text produces it, it contains a digit, and it is not
blacklisted; every returned token has the identifier-pattern shape (an
uppercase-letter-or-digit start followed by at least three more characters
from the body alphabet) and occurs contiguously in the normalized text;
and on the spec's example the output contains AB-1234 and excludes
SCALE. -/
theorem extract_tokens_characterization :
    (∀ s : Str, List.Chain' (fun a b => strLtB a b = true) (extract_tokens s) ∧
        (extract_tokens s).Nodup) ∧
    (∀ s t : Str, t ∈ extract_tokens s ↔
        t ∈ findTokens (normalize s) ∧ t.any isDigitChar = true ∧ t ∉ BLACKLIST) ∧
    (∀ s t : Str, t ∈ extract_tokens s →
        (∃ hd tl, t = hd :: tl ∧ isStart hd = true ∧ (∀ c ∈ tl, isBody c = true) ∧
          4 ≤ t.length) ∧ t <:+: normalize s) ∧
    (str "AB-1234" ∈ extract_tokens (str "SCALE 2024\n新規モデル: AB-1234") ∧
      str "SCALE" ∉ extract_tokens (str "SCALE 2024\n新規モデル: AB-1234")) := by
  refine ⟨?_, ?_, ?_, by decide, by decide⟩
  · intro s
    have hnd : (extract_tokens s).Nodup := by
      unfold extract_tokens
      exact ((sortToks_perm _).nodup_iff).mpr (List.nodup_dedup _)
    exact ⟨chain'_lt_of_le_nodup (chain'_le_sortToks _) hnd, hnd⟩
  · intro s t
    rw [mem_extract_tokens]
    unfold keepToken
    simp only [Bool.and_eq_true, Bool.not_eq_true', decide_eq_false_iff_not]
  · intro s t ht
    have hmem := (mem_extract_tokens.mp ht).1
    refine ⟨goTok_shape _ none t (fun acc h => by cases h) hmem, ?_⟩
    have h2 := goTok_isInfix _ none t hmem
    simpa using h2

/-- Witness for C5: the membership characterization applied to the token
2024 of the example page. -/
theorem extract_tokens_characterization_witness :
    str "2024" ∈ findTokens (normalize (str "SCALE 2024\n新規モデル: AB-1234")) ∧
      (str "2024").any isDigitChar = true ∧ str "2024" ∉ BLACKLIST :=
  (extract_tokens_characterization.2.1 _ _).mp (by decide)

/-! Characterization of the identifier map built by build_database_index. -/

theorem lookup_insertIdx : ∀ (m : List (Str × List Nat)) (k : Str) (i : Nat) (q : Str),
    lookupMap (insertIdx m k i) q =
      if q = k then some (((lookupMap m k).getD []) ++ [i]) else lookupMap m q := by
  intro m k i
  induction m with
  | nil =>
    intro q
    by_cases hqk : q = k
    · subst hqk
      simp [insertIdx, lookupMap]
    · simp [insertIdx, lookupMap, hqk, Ne.symm hqk]
  | cons p rest ih =>
    intro q
    obtain ⟨k', is⟩ := p
    by_cases hk : k' = k
    · subst hk
      by_cases hq : k' = q
      · subst hq
        simp [insertIdx, lookupMap]
      · simp [insertIdx, lookupMap, hq, Ne.symm hq]
    · by_cases hq : k' = q
      · subst hq
        simp [insertIdx, lookupMap, hk, Ne.symm hk]
      · simp [insertIdx, lookupMap, hk, hq, ih q]

theorem lookup_buildMapAux : ∀ (vs : List Str) (m : List (Str × List Nat)) (i : Nat)
    (q : Str), q ≠ [] →
    lookupMap (buildMapAux m i vs) q =
      (lookupMap m q).elim
        (if occFrom i vs q = [] then none else some (occFrom i vs q))
        (fun is => some (is ++ occFrom i vs q)) := by
  intro vs
  induction vs with
  | nil =>
    intro m i q _
    simp only [buildMapAux, occFrom]
    cases lookupMap m q with
    | none => simp
    | some is => simp
  | cons v vs ih =>
    intro m i q hq
    simp only [buildMapAux, occFrom]
    by_cases hvq : v = q
    · have hv : ¬v = [] := by rw [hvq]; exact hq
      subst hvq
      rw [if_neg hv, ih _ _ _ hq, lookup_insertIdx, if_pos rfl]
      cases lookupMap m v with
      | none => simp
      | some is => simp
    · by_cases hv : v = []
      · rw [if_pos hv, ih _ _ _ hq]
        cases lookupMap m q with
        | none => simp [hvq]
        | some is => simp [hvq]
      · rw [if_neg hv, ih _ _ _ hq, lookup_insertIdx, if_neg (fun h => hvq h.symm)]
        cases lookupMap m q with
        | none => simp [hvq]
        | some is => simp [hvq]

theorem lookup_buildMap (vals : List Str) (q : Str) (hq : q ≠ []) :
    lookupMap (buildMap vals) q =
      if occFrom 0 vals q = [] then none else some (occFrom 0 vals q) := by
  unfold buildMap
  rw [lookup_buildMapAux vals [] 0 q hq]
  simp [lookupMap]

theorem lookup_buildMapAux_nil : ∀ (vs : List Str) (m : List (Str × List Nat)) (i : Nat),
    lookupMap (buildMapAux m i vs) [] = lookupMap m [] := by
  intro vs
  induction vs with
  | nil => intro m i; rfl
  | cons v vs ih =>
    intro m i
    simp only [buildMapAux]
    by_cases hv : v = []
    · rw [if_pos hv, ih]
    · rw [if_neg hv, ih, lookup_insertIdx, if_neg (fun h => hv h.symm)]

theorem lookup_buildMap_nil (vals : List Str) : lookupMap (buildMap vals) [] = none := by
  unfold buildMap
  rw [lookup_buildMapAux_nil]
  rfl

theorem mem_occFrom : ∀ (vs : List Str) (i j : Nat) (q : Str),
    j ∈ occFrom i vs q ↔ (i ≤ j ∧ vs[j - i]? = some q) := by
  intro vs
  induction vs with
  | nil =>
    intro i j q
    simp [occFrom]
  | cons v vs ih =>
    intro i j q
    simp only [occFrom, List.mem_append]
    constructor
    · intro h
      rcases h with h1 | h2
      · split at h1
        case isTrue hvq =>
          rw [List.mem_singleton] at h1
          subst h1
          refine ⟨Nat.le_refl _, ?_⟩
          rw [Nat.sub_self]
          simp [hvq]
        case isFalse => simp at h1
      · obtain ⟨hle, hget⟩ := (ih (i + 1) j q).mp h2
        refine ⟨by omega, ?_⟩
        have hji : j - i = (j - (i + 1)) + 1 := by omega
        rw [hji]
        simpa using hget
    · intro ⟨hle, hget⟩
      by_cases hji : j = i
      · subst hji
        rw [Nat.sub_self] at hget
        simp only [List.getElem?_cons_zero, Option.some.injEq] at hget
        left
        simp [hget]
      · right
        refine (ih (i + 1) j q).mpr ⟨by omega, ?_⟩
        have hji2 : j - i = (j - (i + 1)) + 1 := by omega
        rw [hji2] at hget
        simpa using hget

theorem occFrom_pairwise_lt : ∀ (vs : List Str) (i : Nat) (q : Str),
    List.Pairwise (· < ·) (occFrom i vs q) := by
  intro vs
  induction vs with
  | nil => intro i q; simp [occFrom]
  | cons v vs ih =>
    intro i q
    simp only [occFrom]
    rw [List.pairwise_append]
    refine ⟨?_, ih _ _, ?_⟩
    · split
      · simp
      · simp
    · intro a ha b hb
      have hb2 := (mem_occFrom vs (i + 1) b q).mp hb
      split at ha
      case isTrue =>
        rw [List.mem_singleton] at ha
        omega
      case isFalse => simp at ha

theorem occFrom_map_getD (d : IRow) (q : Str) :
    ∀ (frame pre : List IRow),
      (occFrom pre.length (frame.map IRow.hinbanN) q).map
          (fun j => (pre ++ frame).getD j d) =
        frame.filter (fun r => decide (r.hinbanN = q)) := by
  intro frame
  induction frame with
  | nil => intro pre; simp [occFrom]
  | cons r frame ih =>
    intro pre
    simp only [List.map_cons, occFrom]
    have hgetr : (pre ++ r :: frame).getD pre.length d = r := by
      rw [List.getD_eq_getElem?_getD, List.getElem?_append_right (Nat.le_refl _)]
      simp
    have hre : pre ++ r :: frame = (pre ++ [r]) ++ frame := by simp
    have hlen : (pre ++ [r]).length = pre.length + 1 := by simp
    have hih := ih (pre ++ [r])
    rw [hlen] at hih
    by_cases hq : r.hinbanN = q
    · rw [if_pos hq, List.filter_cons_of_pos (by simp [hq])]
      simp only [List.singleton_append, List.map_cons]
      rw [hgetr]
      congr 1
      rw [← hih]
      apply List.map_congr_left
      intro j _
      rw [hre]
    · rw [if_neg hq, List.filter_cons_of_neg (by simp [hq])]
      simp only [List.nil_append]
      rw [← hih]
      apply List.map_congr_left
      intro j _
      rw [hre]

/-- C1: when the normalized token is a key of the identifier map,
match_token returns exactly one identifier-type record per row whose
normalized identifier equals the normalized token, in row order, each
carrying the row's raw identifier and its stock field, and every returned
record is identifier-typed (the specification search is never reached). -/
theorem match_token_identifier_hit (tbl : List Row) (token : Str)
    (hne : normalize token ≠ [])
    (hhit : ∃ r, r ∈ tbl ∧ normalize r.hinban = normalize token) :
    match_token token (build_database_index tbl) =
      (tbl.filter fun r => decide (normalize r.hinban = normalize token)).map
        (fun r => MatchRecord.mk MType.hinban r.hinban r.zaiko) ∧
    ∀ rec ∈ match_token token (build_database_index tbl),
      rec.matched_type = MType.hinban := by
  obtain ⟨r0, hr0, heq0⟩ := hhit
  obtain ⟨k0, hk0⟩ := List.mem_iff_getElem?.mp hr0
  have hframe : (build_database_index tbl).frame =
      tbl.map (fun r => IRow.mk r (normalize r.hinban) (normalize r.spec)) := rfl
  have hvals : (build_database_index tbl).frame.map IRow.hinbanN =
      tbl.map (fun r => normalize r.hinban) := by
    rw [hframe, List.map_map]
    rfl
  have hocc : k0 ∈ occFrom 0 ((build_database_index tbl).frame.map IRow.hinbanN)
      (normalize token) := by
    rw [mem_occFrom]
    refine ⟨Nat.zero_le _, ?_⟩
    rw [Nat.sub_zero, hvals, List.getElem?_map, hk0]
    simp [heq0]
  have hoccne : occFrom 0 ((build_database_index tbl).frame.map IRow.hinbanN)
      (normalize token) ≠ [] := fun h => by rw [h] at hocc; cases hocc
  have hlu : lookupMap (build_database_index tbl).hinban_map (normalize token) =
      some (occFrom 0 ((build_database_index tbl).frame.map IRow.hinbanN)
        (normalize token)) := by
    have h2 := lookup_buildMap ((build_database_index tbl).frame.map IRow.hinbanN)
      (normalize token) hne
    rw [if_neg hoccne] at h2
    exact h2
  have hmt : match_token token (build_database_index tbl) =
      (occFrom 0 ((build_database_index tbl).frame.map IRow.hinbanN)
        (normalize token)).map
        (fun i => rowRecord MType.hinban
          ((build_database_index tbl).frame.getD i (IRow.mk (Row.mk [] [] none) [] []))) := by
    unfold match_token
    dsimp only
    rw [hlu]
  have hcomp : ∀ (occ : List Nat),
      occ.map (fun i => rowRecord MType.hinban
        ((build_database_index tbl).frame.getD i (IRow.mk (Row.mk [] [] none) [] []))) =
      (occ.map (fun j => (build_database_index tbl).frame.getD j
        (IRow.mk (Row.mk [] [] none) [] []))).map (rowRecord MType.hinban) := by
    intro occ
    rw [List.map_map]
    rfl
  constructor
  · rw [hmt, hcomp]
    have hped := occFrom_map_getD (IRow.mk (Row.mk [] [] none) [] [])
      (normalize token) (build_database_index tbl).frame []
    simp only [List.length_nil, List.nil_append] at hped
    rw [hped, hframe, List.filter_map, List.map_map]
    rfl
  · intro rec hrec
    rw [hmt] at hrec
    obtain ⟨i, _, hrec2⟩ := List.mem_map.mp hrec
    rw [← hrec2]
    rfl

/-- Witness for C1: two rows share identifier AB-1234, a third row's
specification contains ab-1234 as substring, and token ab-1234 yields
exactly the two identifier-type records in row order (the specification
row produces nothing). -/
theorem match_token_identifier_hit_witness :
    match_token (str "ab-1234") (build_database_index exTbl) =
      [MatchRecord.mk MType.hinban (str "AB-1234") (some (str "10")),
       MatchRecord.mk MType.hinban (str "AB-1234") none] := by
  have h := (match_token_identifier_hit exTbl (str "ab-1234") (by decide)
    ⟨Row.mk (str "AB-1234") (str "steel bracket AB-1234-X") (some (str "10")),
      by decide, by decide⟩).1
  rw [h]
  decide

/-- C7: in the index built from any reference table, a bucket exists only
for a nonempty normalized identifier, every bucket is nonempty with its
row positions strictly increasing (table order), each position in the
bucket holds a row whose normalized identifier is the bucket key, and a
row position belongs to at most one bucket. -/
theorem build_database_index_invariants (tbl : List Row) :
    (∀ k bucket, lookupMap (build_database_index tbl).hinban_map k = some bucket →
        k ≠ [] ∧ bucket ≠ [] ∧ List.Pairwise (· < ·) bucket ∧
        ∀ i ∈ bucket, ∃ r, (build_database_index tbl).frame[i]? = some r ∧
          r.hinbanN = k) ∧
    lookupMap (build_database_index tbl).hinban_map [] = none ∧
    (∀ k k' b b' i, lookupMap (build_database_index tbl).hinban_map k = some b →
        lookupMap (build_database_index tbl).hinban_map k' = some b' →
        i ∈ b → i ∈ b' → k = k') := by
  have hnil : lookupMap (build_database_index tbl).hinban_map [] = none :=
    lookup_buildMap_nil ((build_database_index tbl).frame.map IRow.hinbanN)
  have hmain : ∀ k bucket,
      lookupMap (build_database_index tbl).hinban_map k = some bucket →
      k ≠ [] ∧ bucket ≠ [] ∧ List.Pairwise (· < ·) bucket ∧
        ∀ i ∈ bucket, ∃ r, (build_database_index tbl).frame[i]? = some r ∧
          r.hinbanN = k := by
    intro k bucket hlk
    have hk : k ≠ [] := by
      intro h
      rw [h, hnil] at hlk
      cases hlk
    have h2 : lookupMap (build_database_index tbl).hinban_map k =
        if occFrom 0 ((build_database_index tbl).frame.map IRow.hinbanN) k = []
        then none
        else some (occFrom 0 ((build_database_index tbl).frame.map IRow.hinbanN) k) :=
      lookup_buildMap ((build_database_index tbl).frame.map IRow.hinbanN) k hk
    rw [hlk] at h2
    by_cases ho : occFrom 0 ((build_database_index tbl).frame.map IRow.hinbanN) k = []
    · rw [if_pos ho] at h2
      cases h2
    · rw [if_neg ho] at h2
      obtain rfl : bucket = occFrom 0
          ((build_database_index tbl).frame.map IRow.hinbanN) k := by
        cases h2
        rfl
      refine ⟨hk, ho, occFrom_pairwise_lt _ _ _, ?_⟩
      intro i hi
      have h3 := (mem_occFrom _ 0 i k).mp hi
      rw [Nat.sub_zero, List.getElem?_map] at h3
      obtain ⟨r, hr, hrk⟩ := Option.map_eq_some'.mp h3.2
      exact ⟨r, hr, hrk⟩
  refine ⟨hmain, hnil, ?_⟩
  intro k k' b b' i hb hb' hib hib'
  obtain ⟨r, hr, hrk⟩ := (hmain k b hb).2.2.2 i hib
  obtain ⟨r', hr', hrk'⟩ := (hmain k' b' hb').2.2.2 i hib'
  rw [hr] at hr'
  cases hr'
  rw [← hrk, ← hrk']

/-- Witness for C7: in the example index the bucket of AB-1234 is [0, 1],
position 0 holds a row keyed AB-1234, and the empty key is absent. -/
theorem build_database_index_invariants_witness :
    (∃ r, (build_database_index exTbl).frame[0]? = some r ∧
        r.hinbanN = str "AB-1234") ∧
    lookupMap (build_database_index exTbl).hinban_map [] = none :=
  ⟨((build_database_index_invariants exTbl).1 (str "AB-1234") [0, 1]
      (by decide)).2.2.2 0 (by decide),
    (build_database_index_invariants exTbl).2.1⟩

/-! The specification branch of the matcher: the pandas contains search. -/

theorem parseRx_plain : ∀ {p : Str}, (∀ c ∈ p, c ≠ Char.ofNat 43) →
    parseRx p = p.map RTok.lit := by
  intro p h
  induction p with
  | nil => rfl
  | cons c rest ih =>
    cases rest with
    | nil => rfl
    | cons d rest2 =>
      show parseRx (c :: d :: rest2) = _
      simp only [parseRx]
      rw [if_neg (h d (by simp)), ih (fun x hx => h x (List.mem_cons_of_mem c hx))]
      rfl

theorem rxMatchHere_lits : ∀ (p s : Str),
    rxMatchHere (p.map RTok.lit) s = true ↔ p <+: s := by
  intro p
  induction p with
  | nil =>
    intro s
    simp [rxMatchHere]
  | cons c p ih =>
    intro s
    cases s with
    | nil => simp [rxMatchHere]
    | cons d s =>
      simp only [List.map_cons, rxMatchHere, Bool.and_eq_true, decide_eq_true_eq,
        List.cons_prefix_cons]
      rw [ih s]

theorem rxSearch_lits : ∀ (s p : Str),
    rxSearch (p.map RTok.lit) s = true ↔ p <:+: s := by
  intro s
  induction s with
  | nil =>
    intro p
    show rxMatchHere (p.map RTok.lit) [] = true ↔ _
    rw [rxMatchHere_lits]
    simp
  | cons c s ih =>
    intro p
    show (rxMatchHere (p.map RTok.lit) (c :: s) || rxSearch (p.map RTok.lit) s) = true ↔ _
    rw [Bool.or_eq_true, rxMatchHere_lits, ih p, List.infix_cons_iff]

/-- C2 counterexample: the claim that the specification branch matches by
contiguous substring fails on the code.  The source line
index.frame["SPEC_N"].str.contains(normalized_token, na=False) uses the
pandas default regex=True, so the token AB+1 is a regular expression: it
matches the cell ABB1 and a specification record is emitted although AB+1
is not a contiguous substring of ABB1. -/
theorem match_token_contains_is_regex_cex :
    match_token (str "AB+1")
        (build_database_index [Row.mk (str "X-1") (str "ABB1") none]) =
      [MatchRecord.mk MType.spec (str "X-1") none] ∧
    ¬(normalize (str "AB+1") <:+: normalize (str "ABB1")) :=
  ⟨by decide, by decide⟩

/-- C2 (amended): when the normalized token is not a key of the identifier
map, match_token emits one specification-type record per row, in row
order, exactly for the rows whose normalized specification contains a
match of the normalized token interpreted as a regular expression (the
pandas str.contains default regex=True); for tokens without regex
metacharacters (in the modeled dialect, without the plus quantifier) this
coincides with contiguous-substring containment. -/
theorem match_token_specification_branch (tbl : List Row) (token : Str)
    (hmiss : lookupMap (build_database_index tbl).hinban_map (normalize token) = none) :
    match_token token (build_database_index tbl) =
      (tbl.filter fun r => pdStrContains (normalize token) (normalize r.spec)).map
        (fun r => MatchRecord.mk MType.spec r.hinban r.zaiko) ∧
    (∀ rec ∈ match_token token (build_database_index tbl),
        rec.matched_type = MType.spec) ∧
    ((∀ c ∈ normalize token, c ≠ Char.ofNat 43) → ∀ cell : Str,
        (pdStrContains (normalize token) cell = true ↔ normalize token <:+: cell)) := by
  have hmt : match_token token (build_database_index tbl) =
      ((build_database_index tbl).frame.filter
        (fun r => pdStrContains (normalize token) r.specN)).map (rowRecord MType.spec) := by
    unfold match_token
    dsimp only
    rw [hmiss]
  refine ⟨?_, ?_, ?_⟩
  · rw [hmt]
    have hframe : (build_database_index tbl).frame =
        tbl.map (fun r => IRow.mk r (normalize r.hinban) (normalize r.spec)) := rfl
    rw [hframe, List.filter_map, List.map_map]
    rfl
  · intro rec hrec
    rw [hmt] at hrec
    obtain ⟨r, _, hr⟩ := List.mem_map.mp hrec
    rw [← hr]
    rfl
  · intro h43 cell
    unfold pdStrContains
    rw [parseRx_plain h43, rxSearch_lits]

/-- Witness for the amended C2: the token bracket misses the identifier
map and yields exactly the specification record of the row whose SPEC_N
contains BRACKET; on this metacharacter-free token the regex search agrees
with substring containment. -/
theorem match_token_specification_branch_witness :
    match_token (str "bracket") (build_database_index exTbl) =
      [MatchRecord.mk MType.spec (str "AB-1234") (some (str "10"))] ∧
    (pdStrContains (normalize (str "bracket"))
        (normalize (str "steel bracket AB-1234-X")) = true ↔
      normalize (str "bracket") <:+: normalize (str "steel bracket AB-1234-X")) := by
  have h := match_token_specification_branch exTbl (str "bracket") (by decide)
  exact ⟨by rw [h.1]; decide, h.2.2 (by decide) _⟩

/-! The OCR orchestrator's fallback policy and the text-source resolver. -/

/-- C3: with the primary backend (yomitoku) requested, the orchestrator
returns the fallback-A (rapidocr) output for every page with provenance
rapidocr in exactly two situations — the primary run fails (configuration
missing, or a page error after the retry policy, both surfacing as a
YomiTokuError) or it succeeds on every page with total stripped text below
the 20-character threshold — and otherwise returns the primary texts with
provenance yomitoku.  In particular, with rest mode and an empty
YOMITOKU_BASE_URL, or with an empty YOMITOKU_MODE, the call completes with
the fallback output and provenance rapidocr. -/
theorem ocr_pages_fallback_policy (env : YTEnv) (restO cliO : PageOracle)
    (fA fB : Nat → Str) (n : Nat) :
    (∀ e, run_yomitoku env restO cliO n = Except.error e →
        ocr_pages (str "yomitoku") env restO cliO fA fB n =
          Except.ok ((List.range n).map fA, str "rapidocr")) ∧
    (∀ texts used, run_yomitoku env restO cliO n = Except.ok (texts, used) →
        totalStripped texts < 20 →
        ocr_pages (str "yomitoku") env restO cliO fA fB n =
          Except.ok ((List.range n).map fA, str "rapidocr")) ∧
    (∀ texts used, run_yomitoku env restO cliO n = Except.ok (texts, used) →
        20 ≤ totalStripped texts →
        ocr_pages (str "yomitoku") env restO cliO fA fB n =
          Except.ok (texts, str "yomitoku")) ∧
    (pyLower (pyStrip env.mode) = str "rest" → pyStrip env.base_url = [] →
        ocr_pages (str "yomitoku") env restO cliO fA fB n =
          Except.ok ((List.range n).map fA, str "rapidocr")) ∧
    (pyStrip env.mode = [] →
        ocr_pages (str "yomitoku") env restO cliO fA fB n =
          Except.ok ((List.range n).map fA, str "rapidocr")) := by
  have hb : pyLower (str "yomitoku") = str "yomitoku" := by decide
  have hfail : ∀ e, run_yomitoku env restO cliO n = Except.error e →
      ocr_pages (str "yomitoku") env restO cliO fA fB n =
        Except.ok ((List.range n).map fA, str "rapidocr") := by
    intro e he
    unfold ocr_pages
    dsimp only
    rw [hb, if_pos rfl, he]
  have hlabel : ∀ texts used, run_yomitoku env restO cliO n = Except.ok (texts, used) →
      used = str "yomitoku" := by
    intro texts used h
    unfold run_yomitoku at h
    dsimp only at h
    split at h
    · cases h
    · split at h
      · cases ho : ocr_yomitoku_rest env.base_url restO n with
        | error e => rw [ho] at h; cases h
        | ok ts =>
          rw [ho] at h
          simp only [Except.map] at h
          cases h
          rfl
      · split at h
        · cases ho : ocr_yomitoku_cli env.cli_path cliO n with
          | error e => rw [ho] at h; cases h
          | ok ts =>
            rw [ho] at h
            simp only [Except.map] at h
            cases h
            rfl
        · cases h
  refine ⟨hfail, ?_, ?_, ?_, ?_⟩
  · intro texts used h hlt
    unfold ocr_pages
    dsimp only
    rw [hb, if_pos rfl, h]
    dsimp only
    rw [if_pos hlt]
  · intro texts used h hge
    unfold ocr_pages
    dsimp only
    rw [hb, if_pos rfl, h]
    dsimp only
    rw [if_neg (by omega), hlabel texts used h]
  · intro hmode hurl
    refine hfail () ?_
    unfold run_yomitoku
    dsimp only
    rw [if_neg (by rw [hmode]; decide), if_pos hmode]
    unfold ocr_yomitoku_rest
    rw [if_pos hurl]
    rfl
  · intro hmode
    refine hfail () ?_
    unfold run_yomitoku
    dsimp only
    rw [if_pos (by rw [hmode]; rfl)]

/-- Witness for C3: one page, rest mode, no endpoint configured; the call
completes with the fallback page text and provenance rapidocr. -/
theorem ocr_pages_fallback_policy_witness :
    ocr_pages (str "yomitoku") (YTEnv.mk (str "rest") (str "") (str ""))
      (fun _ => Except.ok (str "page")) (fun _ => Except.ok (str "page"))
      (fun _ => str "rapid-text") (fun _ => str "paddle-text") 1 =
      Except.ok ([str "rapid-text"], str "rapidocr") :=
  (ocr_pages_fallback_policy (YTEnv.mk (str "rest") (str "") (str "")) _ _ _ _ 1).2.2.2.1
    (by decide) (by decide)

/-- C4: the Text-Source Resolver accepts the embedded text layer with
provenance text-layer exactly when the whitespace-stripped concatenation
of all page texts reaches 20 characters; otherwise it returns whatever the
OCR Backend Orchestrator produced for the whole document, with the backend
label the orchestrator reports (and propagates an OCR failure). -/
theorem extract_pdf_text_policy (pageTexts : List Str)
    (ocrRes : Except Unit (List Str × Str)) :
    (20 ≤ (pyStrip pageTexts.flatten).length →
        extract_pdf_text pageTexts ocrRes = Except.ok (pageTexts, str "text-layer")) ∧
    ((pyStrip pageTexts.flatten).length < 20 →
        extract_pdf_text pageTexts ocrRes = ocrRes) := by
  unfold extract_pdf_text
  constructor
  · intro h
    rw [if_pos h]
  · intro h
    rw [if_neg (by omega)]

/-- Witness for C4: a 21-character single-page text layer is accepted as
text-layer; a short text layer falls through to the OCR result. -/
theorem extract_pdf_text_policy_witness :
    extract_pdf_text [str "ABCDEFGHIJKLMNOPQRSTU"] (Except.error ()) =
      Except.ok ([str "ABCDEFGHIJKLMNOPQRSTU"], str "text-layer") ∧
    extract_pdf_text [str "short"] (Except.ok ([str "ocr text"], str "rapidocr")) =
      Except.ok ([str "ocr text"], str "rapidocr") :=
  ⟨(extract_pdf_text_policy _ _).1 (by decide),
   (extract_pdf_text_policy _ _).2 (by decide)⟩

/-! Order preservation of the concurrent dispatcher. -/

theorem fill_getElem? {α β : Type} (f : α → β) (items : List α) :
    ∀ (order : List Nat) (acc : List (Option β)) (j : Nat),
      (order.foldl (fun acc i => acc.set i ((items[i]?).map f)) acc)[j]? =
        if j ∈ order ∧ j < acc.length then some ((items[j]?).map f) else acc[j]? := by
  intro order
  induction order with
  | nil =>
    intro acc j
    rw [if_neg (fun h => by cases h.1)]
    rfl
  | cons i order ih =>
    intro acc j
    rw [List.foldl_cons, ih]
    by_cases hjo : j ∈ order
    · by_cases hj : j < acc.length
      · rw [if_pos ⟨hjo, by simpa using hj⟩, if_pos ⟨List.mem_cons_of_mem i hjo, hj⟩]
      · rw [if_neg (fun h => hj (by simpa using h.2)),
          if_neg (fun h => hj h.2)]
        rw [List.getElem?_set]
        split
        · rw [if_neg (by omega)]
          exact (List.getElem?_eq_none (by omega)).symm
        · rfl
    · rw [if_neg (fun h => hjo h.1)]
      by_cases hji : i = j
      · subst hji
        rw [List.getElem?_set, if_pos rfl]
        by_cases hi : i < acc.length
        · rw [if_pos hi, if_pos ⟨List.mem_cons_self i order, hi⟩]
        · rw [if_neg hi, if_neg (fun h => hi h.2)]
          exact (List.getElem?_eq_none (by omega)).symm
      · rw [List.getElem?_set, if_neg hji,
          if_neg (fun h => by rcases List.mem_cons.mp h.1 with h2 | h2; exact hji h2.symm; exact hjo h2)]

/-- C9: execute_concurrently equals the sequential map of the worker over
the items in input order, for every completion order of the futures — a
permutation of the submission indices — so concurrent page dispatch
returns page texts in strict page order.  Each cell holds `some` of the
worker's result, mirroring the final cast of the filled None-initialized
list in the source. -/
theorem execute_concurrently_eq_map {α β : Type} (f : α → β) (items : List α)
    (order : List Nat) (h : List.Perm order (List.range items.length)) :
    execute_concurrently f items order = items.map (fun a => some (f a)) := by
  cases items with
  | nil => rfl
  | cons a items' =>
    show fillByCompletion f (a :: items') order = _
    unfold fillByCompletion
    apply List.ext_getElem?
    intro j
    rw [fill_getElem?]
    have hmem : j ∈ order ↔ j < (a :: items').length := by
      rw [h.mem_iff, List.mem_range]
    by_cases hj : j < (a :: items').length
    · rw [if_pos ⟨hmem.mpr hj, by simpa using hj⟩, List.getElem?_map,
        List.getElem?_eq_getElem hj]
      simp
    · rw [if_neg (fun hc => hj (hmem.mp hc.1)), List.getElem?_replicate,
        if_neg (by simpa using hj)]
      exact (List.getElem?_eq_none (by simpa using hj)).symm

/-- Witness for C9: three items completing in the order 2, 0, 1 still
produce results aligned with the input order. -/
theorem execute_concurrently_eq_map_witness :
    execute_concurrently (fun n => n * 2) [1, 2, 3] [2, 0, 1] =
      [some 2, some 4, some 6] := by
  have h := execute_concurrently_eq_map (fun n => n * 2) [1, 2, 3] [2, 0, 1] (by decide)
  rw [h]
  decide

/-! The retry endpoint. -/

/-- C8 counterexample: the claim that a missing persisted reference table
yields a 404 fails on the code: when the task exists but DB_PATHS has no
usable table, main.retry raises HTTPException with status 400, not 404. -/
theorem retry_missing_table_cex :
    retryEndpoint [str "t1"] (fun _ => none) (RetryReq.mk (str "t1") (str "AB-1234")) =
      RetryResp.unavailable ∧ RetryResp.unavailable ≠ RetryResp.notFound :=
  ⟨by decide, by decide⟩

/-- C8 (amended): the retry endpoint responds 404 when the task id is
unknown, 400 (not 404) when the task exists but its persisted reference
table is missing, and otherwise re-runs the Token Matcher against the
stored table for exactly the one requested token, returning the truthy
matched identifiers (empty when nothing matches). -/
theorem retry_endpoint_behavior (tasks : List Str) (dbs : Str → Option (List Row))
    (req : RetryReq) :
    (req.task_id ∉ tasks → retryEndpoint tasks dbs req = RetryResp.notFound) ∧
    (req.task_id ∈ tasks → dbs req.task_id = none →
        retryEndpoint tasks dbs req = RetryResp.unavailable) ∧
    (∀ tbl, req.task_id ∈ tasks → dbs req.task_id = some tbl →
        retryEndpoint tasks dbs req = RetryResp.ok
          (((match_token req.token (build_database_index tbl)).filter
              (fun m => !m.matched_hinban.isEmpty)).map MatchRecord.matched_hinban)) := by
  unfold retryEndpoint
  refine ⟨?_, ?_, ?_⟩
  · intro h
    rw [if_neg h]
  · intro h1 h2
    rw [if_pos h1, h2]
  · intro tbl h1 h2
    rw [if_pos h1, h2]

/-- Witness for the amended C8: an existing task with a stored table
returns the two matched identifiers for token ab-1234. -/
theorem retry_endpoint_behavior_witness :
    retryEndpoint [str "t1"] (fun _ => some exTbl)
        (RetryReq.mk (str "t1") (str "ab-1234")) =
      RetryResp.ok [str "AB-1234", str "AB-1234"] := by
  have h := (retry_endpoint_behavior [str "t1"] (fun _ => some exTbl)
    (RetryReq.mk (str "t1") (str "ab-1234"))).2.2 exTbl (by decide) rfl
  rw [h]
  decide

/-! Sanity checks mirroring the repository's own test suite. -/

/-- tests/test_match.py::test_normalize_converts_fullwidth_and_case. -/
theorem normalize_fullwidth_test :
    normalize (str "ａｂ－１２３ｃ") = str "AB-123C" := by decide

/-- tests/test_match.py::test_extract_tokens_filters_blacklist (the full
output also contains 2024, which passes the digit filter). -/
theorem extract_tokens_blacklist_test :
    extract_tokens (str "SCALE 2024\n新規モデル: AB-1234") =
      [str "2024", str "AB-1234"] := by decide

/-- tests/test_ocr_backend.py::test_yomitoku_falls_back_to_rapid: with
YOMITOKU_MODE unset the orchestrator returns the RapidOCR text with
backend_used rapidocr. -/
theorem ocr_fallback_test :
    ocr_pages (str "yomitoku") (YTEnv.mk (str "") (str "") (str ""))
      (fun _ => Except.ok (str "x")) (fun _ => Except.ok (str "x"))
      (fun _ => str "rapid-text") (fun _ => str "paddle-text") 1 =
      Except.ok ([str "rapid-text"], str "rapidocr") := by rfl

/-- An unmatched token yields the empty record list. -/
theorem match_token_unmatched_test :
    match_token (str "NOPE-99") (build_database_index exTbl) = [] := by decide

end App
